import Mathlib

/-!
# Verification of the elevator-system core

A shallow embedding of the floor-string utilities (`src/shared_utils.c`),
the car movement step (`src/car.c`), the internal-service client
(`src/internal.c`), the safety supervisor wake (`src/safety.c`) and the
dispatcher scheduler (`src/controller.c`), together with theorems settling
the specification's claims about them.

C strings are modelled as `List Char`; machine integers as `Int`/`Nat`
(all values involved are tiny, far from any overflow).
-/

namespace Elevator

/-- `'0' ≤ c && c ≤ '9'`, the digit test used by `validate_floor` in
`src/shared_utils.c` (written there as `floor[i] < '0' || floor[i] > '9'`). -/
def isDigitChar (c : Char) : Bool :=
  48 ≤ c.toNat && c.toNat ≤ 57

/-- Numeric value of a digit character, as computed by `atoi`/`strtol`
(`c - '0'`). -/
def dval (c : Char) : Nat := c.toNat - 48

/-- The digit character for `n < 10`, as produced by `snprintf("%d", ...)`. -/
def digitChar (n : Nat) : Char :=
  Char.ofNat (48 + n)

/-- Value of a most-significant-first digit string, the accumulation
`acc = acc*10 + (c - '0')` performed by C `atoi` over a run of digits. -/
def atoiDigits (s : List Char) : Nat :=
  s.foldl (fun acc c => acc * 10 + dval c) 0

/-- C `atoi` on a whitespace-free token: an optional sign followed by the
longest digit prefix (parsing stops at the first non-digit; every call site
in the repository passes tokens already stripped of whitespace by
`sscanf %s` or built by `snprintf`). -/
def atoi (s : List Char) : Int :=
  match s with
  | [] => 0
  | c :: rest =>
    if c = '-' then -(atoiDigits (rest.takeWhile isDigitChar) : Int)
    else if c = '+' then (atoiDigits (rest.takeWhile isDigitChar) : Int)
    else (atoiDigits ((c :: rest).takeWhile isDigitChar) : Int)

/-- `validate_floor` from `src/shared_utils.c`: reject NULL/empty strings and
strings longer than 3; a `B`-prefixed string must have all-digit remainder
with `atoi` value in `[1, MIN_FLOOR] = [1, 99]`; any other string must be
all digits with `atoi` value in `[1, MAX_FLOOR] = [1, 999]`. -/
def validate_floor (floor : List Char) : Bool :=
  if floor.length = 0 ∨ floor.length > 3 then false
  else
    match floor with
    | [] => false
    | c :: rest =>
      if c = 'B' then
        rest.all isDigitChar && decide (1 ≤ atoiDigits rest) && decide (atoiDigits rest ≤ 99)
      else
        (c :: rest).all isDigitChar &&
          decide (1 ≤ atoiDigits (c :: rest)) && decide (atoiDigits (c :: rest) ≤ 999)

/-- `floor_to_int` from `src/shared_utils.c`: `B`-prefixed strings map to
`-atoi(floor+1)`, all others to `atoi(floor)`. -/
def floor_to_int (s : List Char) : Int :=
  match s with
  | [] => atoi []
  | c :: rest => if c = 'B' then -(atoi rest) else atoi (c :: rest)

/-- Digit-emission loop of `snprintf("%d", ...)`: peel the least significant
digit onto the accumulator until the value is a single digit. The fuel
argument only makes the structural recursion evident; `n + 1` units always
suffice. -/
def natToCharsAux : Nat → Nat → List Char → List Char
  | 0, _, acc => acc
  | fuel + 1, n, acc =>
    if n < 10 then digitChar n :: acc
    else natToCharsAux fuel (n / 10) (digitChar (n % 10) :: acc)

/-- Decimal digits of `n`, most significant first, exactly the characters
`snprintf("%d", n)` emits for `n ≥ 0`. -/
def natToChars (n : Nat) : List Char :=
  natToCharsAux (n + 1) n []

/-- `int_to_floor` from `src/shared_utils.c`: negative values print as
`B%d` of the absolute value, others as `%d`. -/
def int_to_floor (n : Int) : List Char :=
  if n < 0 then 'B' :: natToChars (-n).toNat
  else natToChars n.toNat

/-- `snprintf("%d", i)` for a possibly negative `int`, used by
`get_next_floor_up`/`down` in `src/internal.c`. -/
def intDec (i : Int) : List Char :=
  if i < 0 then '-' :: natToChars (-i).toNat else natToChars i.toNat

/-- `move_one_floor_towards` from `src/car.c`: compare the integer values of
`current` and `dest`, step the integer by one toward `dest`, and print it
back with `int_to_floor`. -/
def move_one_floor_towards (current dest : List Char) : List Char :=
  let c := floor_to_int current
  let d := floor_to_int dest
  int_to_floor (if c < d then c + 1 else if c > d then c - 1 else c)

/-- `floor_compare` from `src/car.c` (sign of `floor_to_int f1 - floor_to_int f2`). -/
def floor_compare (f1 f2 : List Char) : Int :=
  floor_to_int f1 - floor_to_int f2

/-- Spec-side predicate: the digit part of the floor string does not start
with `'0'` (the string is the canonical rendering of its value, §3 of the
spec: "N" for positive N, "BN" for basements). -/
def no_leading_zero (s : List Char) : Bool :=
  match s with
  | [] => true
  | c :: rest =>
    if c = 'B' then decide (rest.head? ≠ some '0')
    else decide (c ≠ '0')

/-- The car shared-memory segment (`car_shared_mem`). The field list follows
§3 of the design and the accesses made throughout `src/` (`car.c`,
`internal.c`, `safety.c`); the mutex and condition variable carry no data
and are omitted. Flag fields are `uint8_t`, modelled as `Nat`. -/
structure CarShm where
  current_floor : List Char
  destination_floor : List Char
  status : List Char
  open_button : Nat
  close_button : Nat
  door_obstruction : Nat
  overload : Nat
  emergency_stop : Nat
  individual_service_mode : Nat
  emergency_mode : Nat
  safety_system : Nat
deriving DecidableEq

/-- `is_basement_floor` from `src/internal.c` (`floor[0] == 'B'`). -/
def is_basement_floor (s : List Char) : Bool :=
  s.head? = some 'B'

/-- `get_floor_number` from `src/internal.c`. -/
def get_floor_number (s : List Char) : Int :=
  if is_basement_floor s then atoi s.tail else atoi s

/-- `get_next_floor_up` from `src/internal.c`: `B1 → 1`, `Bn → B(n-1)`,
`n → n+1` (no clamping at the top). -/
def get_next_floor_up (current : List Char) : List Char :=
  if is_basement_floor current then
    if get_floor_number current = 1 then ['1']
    else 'B' :: intDec (get_floor_number current - 1)
  else
    intDec (get_floor_number current + 1)

/-- `get_next_floor_down` from `src/internal.c`: `1 → B1`, `n → n-1`,
`Bn → B(n+1)` (no clamping at the bottom). -/
def get_next_floor_down (current : List Char) : List Char :=
  if is_basement_floor current then
    'B' :: intDec (get_floor_number current + 1)
  else
    if get_floor_number current = 1 then ['B', '1']
    else intDec (get_floor_number current - 1)

/-- The seven operations accepted by the internal-service client. -/
inductive InternalOp
  | op_open | op_close | op_stop | service_on | service_off | op_up | op_down
deriving DecidableEq

/-- One run of the internal-service client (`main` of `src/internal.c`) on
the locked segment. `none` models the precondition-failure paths that print
a message and `exit(1)` without touching the segment. -/
def internal_run (op : InternalOp) (s : CarShm) : Option CarShm :=
  match op with
  | .op_open => some { s with open_button := 1 }
  | .op_close => some { s with close_button := 1 }
  | .op_stop => some { s with emergency_stop := 1 }
  | .service_on => some { s with individual_service_mode := 1, emergency_mode := 0 }
  | .service_off => some { s with individual_service_mode := 0 }
  | .op_up =>
    if s.individual_service_mode = 0 then none
    else if s.status = "Open".data ∨ s.status = "Opening".data ∨ s.status = "Closing".data then
      none
    else if s.status = "Between".data then none
    else some { s with destination_floor := get_next_floor_up s.current_floor }
  | .op_down =>
    if s.individual_service_mode = 0 then none
    else if s.status = "Open".data ∨ s.status = "Opening".data ∨ s.status = "Closing".data then
      none
    else if s.status = "Between".data then none
    else some { s with destination_floor := get_next_floor_down s.current_floor }

/-- `validate_status_string` from `src/safety.c`. -/
def validate_status_string (st : List Char) : Bool :=
  st = "Opening".data || st = "Open".data || st = "Closing".data ||
    st = "Closed".data || st = "Between".data

/-- `check_boolean_field` from `src/safety.c` (`field_value < 2`). -/
def check_boolean_field (v : Nat) : Bool :=
  v < 2

/-- `strtol(s, &end, 10)` combined with the caller's `endptr == start` and
`*endptr != '\0'` checks in `src/safety.c`: succeeds exactly when the whole
token is an optional sign followed by at least one digit (the segment's short
floor fields never carry leading whitespace, and `ERANGE` cannot occur on
three characters). -/
def strtol10 (s : List Char) : Option Int :=
  match s with
  | [] => none
  | c :: rest =>
    if c = '-' then
      if rest ≠ [] ∧ rest.all isDigitChar then some (-(atoiDigits rest : Int)) else none
    else if c = '+' then
      if rest ≠ [] ∧ rest.all isDigitChar then some (atoiDigits rest : Int) else none
    else if (c :: rest).all isDigitChar then some (atoiDigits (c :: rest) : Int) else none

/-- `validate_floor_string` from `src/safety.c` (the supervisor's own,
`strtol`-based floor validator). -/
def validate_floor_string (floor : List Char) : Bool :=
  if floor.length = 0 ∨ floor.length > 3 then false
  else
    match floor with
    | [] => false
    | c :: rest =>
      if c = 'B' then
        if floor.length < 2 then false
        else
          match strtol10 rest with
          | none => false
          | some v => decide (1 ≤ v) && decide (v ≤ 99)
      else
        match strtol10 (c :: rest) with
        | none => false
        | some v => decide (1 ≤ v) && decide (v ≤ 999)

/-- `check_data_consistency` from `src/safety.c`: skipped entirely while in
emergency mode, otherwise every field must pass its validator and the
door-obstruction rule must hold. -/
def check_data_consistency (s : CarShm) : Bool :=
  if s.emergency_mode = 1 then true
  else
    validate_floor_string s.current_floor &&
    validate_floor_string s.destination_floor &&
    validate_status_string s.status &&
    check_boolean_field s.open_button &&
    check_boolean_field s.close_button &&
    check_boolean_field s.door_obstruction &&
    check_boolean_field s.overload &&
    check_boolean_field s.emergency_stop &&
    check_boolean_field s.individual_service_mode &&
    check_boolean_field s.emergency_mode &&
    (if s.door_obstruction = 1 then
      s.status = "Opening".data || s.status = "Closing".data
    else true)

/-- One wake of the safety supervisor (`main` loop of `src/safety.c`):
heartbeat reset, door-obstruction override, emergency-stop latch, overload
latch, then the data-consistency check. -/
def safety_wake (s : CarShm) : CarShm :=
  let s1 := if s.safety_system ≠ 1 then { s with safety_system := 1 } else s
  let s2 := if s1.door_obstruction = 1 ∧ s1.status = "Closing".data then
              { s1 with status := "Opening".data } else s1
  let s3 := if s2.emergency_stop = 1 ∧ s2.emergency_mode = 0 then
              { s2 with emergency_mode := 1, emergency_stop := 0 } else s2
  let s4 := if s3.overload = 1 ∧ s3.emergency_mode = 0 then
              { s3 with emergency_mode := 1 } else s3
  if check_data_consistency s4 then s4 else { s4 with emergency_mode := 1 }

/-- The individual shared-memory writes performed by the car process
(`src/car.c`): door-phase transitions of `open_door_sequence` and
`handle_buttons`, the heartbeat aging and stall escalation, the motion
transitions of `main_operation_thread`, the out-of-range destination snap of
individual-service mode, and the link worker's destination write on a
`FLOOR` frame. Guards are the conditionals surrounding each write; entry
conditions of the enclosing control flow are deliberately not modelled, so
the relation over-approximates the engine's behaviour. -/
inductive EngineStep : CarShm → CarShm → Prop
  | opening_start (s : CarShm) :
      EngineStep s { s with open_button := 0, status := "Opening".data }
  | opening_done (s : CarShm) (h : s.status = "Opening".data) :
      EngineStep s { s with status := "Open".data }
  | close_pressed (s : CarShm) (h1 : s.close_button = 1) (h2 : s.status = "Open".data) :
      EngineStep s { s with close_button := 0, status := "Closing".data }
  | auto_close (s : CarShm) (h : s.status = "Open".data) :
      EngineStep s { s with status := "Closing".data }
  | closing_done (s : CarShm) (h : s.status = "Closing".data) :
      EngineStep s { s with status := "Closed".data }
  | open_pressed (s : CarShm) (h1 : s.open_button = 1) (h2 : s.status = "Closed".data) :
      EngineStep s { s with open_button := 0, status := "Opening".data }
  | hb_age1 (s : CarShm) (h : s.safety_system = 1) :
      EngineStep s { s with safety_system := 2 }
  | hb_age2 (s : CarShm) (h : s.safety_system = 2) :
      EngineStep s { s with safety_system := 3 }
  | hb_stall (s : CarShm) (h : 3 ≤ s.safety_system) :
      EngineStep s { s with emergency_mode := 1 }
  | start_motion (s : CarShm) (h : s.status = "Closed".data) :
      EngineStep s { s with status := "Between".data }
  | move_tick (s : CarShm) (h1 : s.emergency_mode = 0) (h2 : s.status = "Between".data) :
      EngineStep s
        { s with
          current_floor := move_one_floor_towards s.current_floor s.destination_floor,
          status :=
            if floor_compare (move_one_floor_towards s.current_floor s.destination_floor)
                s.destination_floor = 0 then "Closed".data else s.status }
  | snap_dest (s : CarShm) :
      EngineStep s { s with destination_floor := s.current_floor }
  | set_dest (s : CarShm) (f : List Char) :
      EngineStep s { s with destination_floor := f }

/-- `Direction` from `src/controller.c`. -/
inductive Direction
  | up | down | idle
deriving DecidableEq

/-- The `(next > current) ? DIR_UP : ((next < current) ? DIR_DOWN : DIR_IDLE)`
computation of `src/controller.c`. -/
def dirOf (current next : Int) : Direction :=
  if next > current then .up else if next < current then .down else .idle

/-- A dispatcher car record (`Car` in `src/controller.c`). Only the fields
the scheduler reads are modelled; the pending-stops array and its size
become one list. -/
structure Car where
  car_name : List Char
  floor_min : Int
  floor_max : Int
  current_floor : Int
  status : List Char
  queue : List Int
deriving DecidableEq

/-- `MAX_QUEUE_DEPTH` from `src/controller.c`. -/
def MAX_QUEUE_DEPTH : Nat := 20

/-- `insert_into_queue` from `src/controller.c`: no-op on a full queue or an
out-of-range index, and when the value equals the entry just before the
insertion point (adjacent-duplicate suppression). -/
def insert_into_queue (queue : List Int) (index : Nat) (value : Int) : List Int :=
  if MAX_QUEUE_DEPTH ≤ queue.length ∨ queue.length < index then queue
  else if 0 < index ∧ queue[index - 1]? = some value then queue
  else queue.take index ++ value :: queue.drop index

/-- `remove_from_queue` from `src/controller.c`. -/
def remove_from_queue (queue : List Int) (index : Nat) : List Int :=
  if queue.length = 0 ∨ queue.length ≤ index then queue
  else queue.take index ++ queue.drop (index + 1)

/-- The inner `j` loop of `calculate_insertion_cost`
(`src/controller.c:459-477`): scan the remaining stops (`dest` standing in
at the end) for a drop-off point; a stop past `source` against the request
direction aborts the candidate segment (the C `goto next_segment`). -/
def dropoff_scan (source dest : Int) (reqUp : Bool) : List Int → Bool
  | [] =>
    -- j = queue_size: check_next is dest itself; the reversal test on it
    -- is the only way this arm can fail
    !((reqUp && decide (dest < source)) || (!reqUp && decide (dest > source)))
  | cn :: rest =>
    if (reqUp && decide (cn < source)) || (!reqUp && decide (cn > source)) then false
    else if (reqUp && decide (dest ≤ cn)) || (!reqUp && decide (dest ≥ cn)) then true
    else dropoff_scan source dest reqUp rest

/-- The `can_insert_dest` loop of the direction-run extension check
(`src/controller.c:500-515`). At `j = queue_size` the loop always sets
`can_insert_dest = 1`, so the empty tail yields `true`. -/
def extend_dest_scan (dest : Int) (reqDir nextSegDir : Direction) : List Int → Bool
  | [] => true
  | cf :: rest =>
    if reqDir = nextSegDir &&
        ((reqDir = Direction.down && decide (dest ≥ cf)) ||
         (reqDir = Direction.up && decide (dest ≤ cf))) then true
    else extend_dest_scan dest reqDir nextSegDir rest

/-- The direction-run extension check of `calculate_insertion_cost`
(`src/controller.c:483-524`) for segment `current → next` with remaining
queue `rest`. Note the C sentinel: a next stop that is literally `-1`
(floor B1) is treated as "no next stop". -/
def extend_fires (source dest : Int) (reqDir : Direction)
    (current next : Int) (rest : List Int) : Bool :=
  let segDir := dirOf current next
  if segDir ≠ Direction.idle then
    let nsf : Int := match rest with | [] => -1 | f :: _ => f
    let nextSegDir := if nsf = -1 then Direction.idle else dirOf next nsf
    if nextSegDir ≠ segDir ∧ nextSegDir ≠ Direction.idle then
      if (segDir = Direction.up ∧ source > next) ∨
         (segDir = Direction.down ∧ source < next) then
        if (segDir = Direction.up ∧ dest < source) ∨
           (segDir = Direction.down ∧ dest > source) then
          extend_dest_scan dest reqDir nextSegDir rest
        else false
      else false
    else false
  else false

/-- The outer `i` loop of `calculate_insertion_cost` (`src/controller.c:
448-528`), walking the queue as directional segments; `idx` is `i`. A
successful drop-off scan returns `i`; a failed one `goto`s past the
extension check to the next segment. -/
def cost_scan (source dest : Int) (reqDir : Direction) :
    Int → List Int → Nat → Nat
  | _, [], idx => idx
  | current, next :: rest, idx =>
    if dirOf current next = reqDir ∧
        ((reqDir = Direction.up ∧ source ≥ current ∧ source < next) ∨
         (reqDir = Direction.down ∧ source ≤ current ∧ source > next)) then
      if dropoff_scan source dest (reqDir = Direction.up) (next :: rest) then idx
      else cost_scan source dest reqDir next rest (idx + 1)
    else if extend_fires source dest reqDir current next rest then idx
    else cost_scan source dest reqDir next rest (idx + 1)

/-- The effective start floor of `calculate_insertion_cost`
(`src/controller.c:438-444`): the head of a nonempty queue when the car is
already `Closing` or `Between`, else its current floor. -/
def effective_floor (car : Car) : Int :=
  match car.queue with
  | [] => car.current_floor
  | q0 :: _ =>
    if car.status = "Closing".data ∨ car.status = "Between".data then q0
    else car.current_floor

/-- `request_dir = (dest > source) ? DIR_UP : DIR_DOWN` from `src/controller.c`. -/
def request_dir (source dest : Int) : Direction :=
  if dest > source then Direction.up else Direction.down

/-- `calculate_insertion_cost` from `src/controller.c`. Every return path
sets `final_len = queue_size + 2` and returns `pickup_idx`, so only the
pickup index needs to be computed (the C `return -1` guard in
`schedule_request` is dead code: no path returns a negative cost). -/
def calculate_insertion_cost (car : Car) (source dest : Int) : Nat :=
  cost_scan source dest (request_dir source dest) (effective_floor car) car.queue 0

/-- The candidate filter of `schedule_request` (`src/controller.c:342-345`):
the car must cover both floors. -/
def covers (car : Car) (source dest : Int) : Bool :=
  !(decide (source < car.floor_min) || decide (source > car.floor_max) ||
    decide (dest < car.floor_min) || decide (dest > car.floor_max))

/-- The destination-insertion scan of `schedule_request`
(`src/controller.c:387-404`): first index after the pickup whose stop lies
beyond `dest` in the travel direction, else the end of the queue. -/
def find_dest_idx (q1 : List Int) (pickup : Nat) (travelUp : Bool) (dest : Int) : Nat :=
  match (q1.drop (pickup + 1)).findIdx?
      (fun f => if travelUp then decide (dest < f) else decide (dest > f)) with
  | some k => pickup + 1 + k
  | none => q1.length

/-- The queue-commit block of `schedule_request` (`src/controller.c:
368-411`): insert the source at the pickup index, then the destination at
its scan position unless it is already queued anywhere. -/
def commit_queue (car : Car) (source dest : Int) : List Int :=
  let pickup := calculate_insertion_cost car source dest
  let q1 := insert_into_queue car.queue pickup source
  if dest ∈ q1 then q1
  else insert_into_queue q1 (find_dest_idx q1 pickup (dest > source) dest) dest

/-- The candidate-selection loop of `schedule_request`
(`src/controller.c:339-362`): first car with strictly smaller cost wins;
equal cost falls to the shorter resulting queue. `i` tracks the array
index, `minCost`/`bestLen` start at 1000. -/
def select_best (source dest : Int) :
    List Car → Nat → Nat → Nat → Option (Nat × Car) → Option (Nat × Car)
  | [], _, _, _, best => best
  | c :: rest, i, minCost, bestLen, best =>
    if covers c source dest then
      let cost := calculate_insertion_cost c source dest
      let flen := c.queue.length + 2
      if cost < minCost ∨ (cost = minCost ∧ flen < bestLen) then
        select_best source dest rest (i + 1) cost flen (some (i, c))
      else select_best source dest rest (i + 1) minCost bestLen best
    else select_best source dest rest (i + 1) minCost bestLen best

/-- The dispatcher's reply to a call pad. -/
inductive Reply
  | assigned (name : List Char)
  | unavailable
deriving DecidableEq

/-- `schedule_request` from `src/controller.c`, restricted to its observable
effect: the reply sent to the call pad and the updated car table (the list
of in-use records in array order). -/
def schedule_request (cars : List Car) (source dest : Int) : Reply × List Car :=
  match select_best source dest cars 0 1000 1000 none with
  | none => (Reply.unavailable, cars)
  | some (i, c) =>
    (Reply.assigned c.car_name, cars.set i { c with queue := commit_queue c source dest })

/-- The queue states a single car's pending-stops list can reach in the
dispatcher: empty at registration, a commit per scheduled call (under
arbitrary live status), and head removal when a `STATUS` update reports
arrival (`src/controller.c:267-271`). -/
inductive QueueReach : List Int → Prop
  | init : QueueReach []
  | commit (nm : List Char) (fmin fmax cf : Int) (st : List Char)
      (source dest : Int) {q : List Int} :
      QueueReach q →
      QueueReach (commit_queue
        { car_name := nm, floor_min := fmin, floor_max := fmax,
          current_floor := cf, status := st, queue := q } source dest)
  | pop {q : List Int} : QueueReach q → QueueReach (remove_from_queue q 0)

/-- Concrete fixture: a registered car "A" serving floors 1..10, at floor 1
with doors closed and pending stops `q`. -/
def sample_car (q : List Int) : Car :=
  { car_name := "A".data, floor_min := 1, floor_max := 10, current_floor := 1,
    status := "Closed".data, queue := q }

/-- Concrete fixture: a quiescent shared segment (car at floor 3, closed,
no flags set, supervisor heartbeat fresh). -/
def sample_shm : CarShm :=
  { current_floor := "3".data, destination_floor := "3".data,
    status := "Closed".data, open_button := 0, close_button := 0,
    door_obstruction := 0, overload := 0, emergency_stop := 0,
    individual_service_mode := 0, emergency_mode := 0, safety_system := 1 }

/-- Concrete fixture: the segment in emergency mode. -/
def sample_shm_emergency : CarShm :=
  { sample_shm with emergency_mode := 1 }

/-- Concrete fixture: car in Between, travelling from B1 up to 1. -/
def shm_B1_to_1 : CarShm :=
  { sample_shm with
    current_floor := "B1".data
    destination_floor := "1".data
    status := "Between".data }

/-- Concrete fixture: car parked at the top floor 999 in individual-service
mode. -/
def shm_at_999 : CarShm :=
  { sample_shm with
    current_floor := "999".data
    destination_floor := "999".data
    individual_service_mode := 1 }

/-- The shared-memory fields (for frame conditions over the segment). -/
inductive ShmField
  | currentFloor | destinationFloor | statusF | openButton | closeButton
  | doorObstruction | overloadF | emergencyStop | individualServiceMode
  | emergencyMode | safetySystem
deriving DecidableEq

/-- Field-wise agreement of two segments. -/
def fieldEq : ShmField → CarShm → CarShm → Prop
  | .currentFloor, a, b => a.current_floor = b.current_floor
  | .destinationFloor, a, b => a.destination_floor = b.destination_floor
  | .statusF, a, b => a.status = b.status
  | .openButton, a, b => a.open_button = b.open_button
  | .closeButton, a, b => a.close_button = b.close_button
  | .doorObstruction, a, b => a.door_obstruction = b.door_obstruction
  | .overloadF, a, b => a.overload = b.overload
  | .emergencyStop, a, b => a.emergency_stop = b.emergency_stop
  | .individualServiceMode, a, b => a.individual_service_mode = b.individual_service_mode
  | .emergencyMode, a, b => a.emergency_mode = b.emergency_mode
  | .safetySystem, a, b => a.safety_system = b.safety_system

/-- The single field each internal-service operation is documented to
mutate (the comment block at the top of `src/internal.c`). -/
def writes_field : InternalOp → ShmField
  | .op_open => .openButton
  | .op_close => .closeButton
  | .op_stop => .emergencyStop
  | .service_on => .individualServiceMode
  | .service_off => .individualServiceMode
  | .op_up => .destinationFloor
  | .op_down => .destinationFloor

end Elevator

namespace Elevator

/-! ## Decimal representation lemmas -/

theorem natToCharsAux_append (fuel : Nat) :
    ∀ n acc, natToCharsAux fuel n acc = natToCharsAux fuel n [] ++ acc := by
  induction fuel with
  | zero => intro n acc; simp [natToCharsAux]
  | succ fuel ih =>
    intro n acc
    by_cases h : n < 10
    · simp [natToCharsAux, h]
    · simp only [natToCharsAux, if_neg h]
      rw [ih (n / 10) (digitChar (n % 10) :: acc), ih (n / 10) [digitChar (n % 10)]]
      simp

theorem natToCharsAux_fuel :
    ∀ n fuel fuel', n < fuel → n < fuel' →
      natToCharsAux fuel n [] = natToCharsAux fuel' n [] := by
  intro n
  induction n using Nat.strong_induction_on with
  | _ n ih =>
    intro fuel fuel' hf hf'
    match fuel, fuel' with
    | f + 1, f' + 1 =>
      by_cases h : n < 10
      · simp [natToCharsAux, h]
      · simp only [natToCharsAux, if_neg h]
        rw [natToCharsAux_append f, natToCharsAux_append f']
        have hlt : n / 10 < n := Nat.div_lt_self (by omega) (by omega)
        rw [ih (n / 10) hlt f f' (by omega) (by omega)]

theorem natToCharsAux_succ (fuel n : Nat) (h : ¬ n < 10) :
    natToCharsAux (fuel + 1) n [] = natToCharsAux fuel (n / 10) [digitChar (n % 10)] := by
  simp [natToCharsAux, h]

theorem natToChars_eq (n : Nat) :
    natToChars n = if n < 10 then [digitChar n]
                   else natToChars (n / 10) ++ [digitChar (n % 10)] := by
  by_cases h : n < 10
  · simp [natToChars, natToCharsAux, h]
  · rw [if_neg h]
    show natToCharsAux (n + 1) n [] =
      natToCharsAux (n / 10 + 1) (n / 10) [] ++ [digitChar (n % 10)]
    rw [natToCharsAux_succ n n h, natToCharsAux_append n]
    have hlt : n / 10 < n := Nat.div_lt_self (by omega) (by omega)
    rw [natToCharsAux_fuel (n / 10) n (n / 10 + 1) (by omega) (by omega)]

theorem isDigitChar_digitChar {k : Nat} (h : k ≤ 9) :
    isDigitChar (digitChar k) = true := by
  interval_cases k <;> decide

theorem dval_digitChar {k : Nat} (h : k ≤ 9) : dval (digitChar k) = k := by
  interval_cases k <;> decide

theorem digitChar_ne_zero {k : Nat} (h1 : 1 ≤ k) (h9 : k ≤ 9) :
    digitChar k ≠ '0' := by
  interval_cases k <;> decide

theorem toNat_bounds_of_isDigitChar {c : Char} (h : isDigitChar c = true) :
    48 ≤ c.toNat ∧ c.toNat ≤ 57 := by
  simp only [isDigitChar, Bool.and_eq_true, decide_eq_true_eq] at h
  omega

theorem digitChar_dval {c : Char} (h : isDigitChar c = true) :
    digitChar (dval c) = c := by
  obtain ⟨h1, h2⟩ := toNat_bounds_of_isDigitChar h
  have : 48 + dval c = c.toNat := by simp only [dval]; omega
  rw [digitChar, this, Char.ofNat_toNat]

theorem dval_le_nine {c : Char} (h : isDigitChar c = true) : dval c ≤ 9 := by
  obtain ⟨h1, h2⟩ := toNat_bounds_of_isDigitChar h
  simp only [dval]; omega

theorem dval_pos_of_ne_zero {c : Char} (h : isDigitChar c = true) (hz : c ≠ '0') :
    1 ≤ dval c := by
  obtain ⟨h1, h2⟩ := toNat_bounds_of_isDigitChar h
  have : c.toNat ≠ 48 := by
    intro he
    exact hz (by rw [← Char.ofNat_toNat c, he])
  simp only [dval]; omega

theorem atoiDigits_append_singleton (ds : List Char) (c : Char) :
    atoiDigits (ds ++ [c]) = atoiDigits ds * 10 + dval c := by
  simp [atoiDigits, List.foldl_append]

theorem atoiDigits_cons (c : Char) (t : List Char) :
    atoiDigits (c :: t) = t.foldl (fun a x => a * 10 + dval x) (dval c) := by
  simp [atoiDigits]

theorem foldl_digits_ge (t : List Char) :
    ∀ acc, 1 ≤ acc → 1 ≤ t.foldl (fun a x => a * 10 + dval x) acc := by
  induction t with
  | nil => intro acc h; simpa using h
  | cons c t ih =>
    intro acc h
    simp only [List.foldl_cons]
    exact ih _ (by omega)

theorem atoiDigits_pos {c : Char} {t : List Char}
    (hd : isDigitChar c = true) (hz : c ≠ '0') :
    1 ≤ atoiDigits (c :: t) := by
  rw [atoiDigits_cons]
  exact foldl_digits_ge t _ (dval_pos_of_ne_zero hd hz)

/-- Canonicity: a nonempty all-digit string with no leading zero is exactly
the `snprintf("%d", ...)` rendering of its `atoi` value. -/
theorem natToChars_atoiDigits :
    ∀ ds : List Char, ds.all isDigitChar = true → ds ≠ [] →
      ds.head? ≠ some '0' → natToChars (atoiDigits ds) = ds := by
  intro ds
  induction ds using List.reverseRecOn with
  | nil => intro _ h; exact absurd rfl h
  | append_singleton as c ih =>
    intro hall _ hhead
    have hc : isDigitChar c = true := by
      simp only [List.all_append, Bool.and_eq_true, List.all_cons] at hall
      simpa using hall.2
    have hasall : as.all isDigitChar = true := by
      simp only [List.all_append, Bool.and_eq_true] at hall
      exact hall.1
    rw [atoiDigits_append_singleton]
    match as with
    | [] =>
      have hd9 : dval c ≤ 9 := dval_le_nine hc
      rw [natToChars_eq]
      simp only [atoiDigits, List.foldl_nil, Nat.zero_mul, Nat.zero_add,
        if_pos (by omega : dval c < 10)]
      rw [digitChar_dval hc]
      rfl
    | a :: as' =>
      have hhead' : (a :: as').head? ≠ some '0' := by
        simpa using hhead
      have haz : a ≠ '0' := by simpa using hhead'
      have hadig : isDigitChar a = true := by
        simp only [List.all_cons, Bool.and_eq_true] at hasall
        exact hasall.1
      have hpos : 1 ≤ atoiDigits (a :: as') := atoiDigits_pos hadig haz
      have hd9 : dval c ≤ 9 := dval_le_nine hc
      set v := atoiDigits (a :: as') * 10 + dval c with hv
      have hv10 : ¬ v < 10 := by omega
      rw [natToChars_eq, if_neg hv10]
      have hdiv : v / 10 = atoiDigits (a :: as') := by omega
      have hmod : v % 10 = dval c := by omega
      rw [hdiv, hmod, ih hasall (by simp) hhead', digitChar_dval hc]

/-- Round trip the other way: `atoi` recovers the number `snprintf` printed. -/
theorem atoiDigits_natToChars : ∀ n : Nat, atoiDigits (natToChars n) = n := by
  intro n
  induction n using Nat.strong_induction_on with
  | _ n ih =>
    rw [natToChars_eq]
    by_cases h : n < 10
    · rw [if_pos h]
      simp [atoiDigits, dval_digitChar (by omega : n ≤ 9)]
    · rw [if_neg h, atoiDigits_append_singleton]
      have hlt : n / 10 < n := Nat.div_lt_self (by omega) (by omega)
      rw [ih (n / 10) hlt, dval_digitChar (by omega : n % 10 ≤ 9)]
      omega

theorem natToChars_ne_nil (n : Nat) : natToChars n ≠ [] := by
  rw [natToChars_eq]
  by_cases h : n < 10 <;> simp [h]

theorem natToChars_all_digits : ∀ n : Nat, (natToChars n).all isDigitChar = true := by
  intro n
  induction n using Nat.strong_induction_on with
  | _ n ih =>
    rw [natToChars_eq]
    by_cases h : n < 10
    · simp [h, isDigitChar_digitChar (by omega : n ≤ 9)]
    · have hlt : n / 10 < n := Nat.div_lt_self (by omega) (by omega)
      simp [h, ih (n / 10) hlt, isDigitChar_digitChar (by omega : n % 10 ≤ 9)]

theorem natToChars_head_ne_zero : ∀ n : Nat, 1 ≤ n →
    (natToChars n).head? ≠ some '0' := by
  intro n
  induction n using Nat.strong_induction_on with
  | _ n ih =>
    intro hn
    rw [natToChars_eq]
    by_cases h : n < 10
    · rw [if_pos h]
      simp only [List.head?_cons, ne_eq, Option.some.injEq]
      exact digitChar_ne_zero hn (by omega)
    · have hlt : n / 10 < n := Nat.div_lt_self (by omega) (by omega)
      have hne := natToChars_ne_nil (n / 10)
      rw [if_neg h, List.head?_append_of_ne_nil _ hne]
      exact ih (n / 10) hlt (by omega)

theorem natToChars_length_le : ∀ k n : Nat, n < 10 ^ k → 1 ≤ k →
    (natToChars n).length ≤ k := by
  intro k
  induction k with
  | zero => omega
  | succ k ih =>
    intro n hn _
    rw [natToChars_eq]
    by_cases h : n < 10
    · rw [if_pos h]
      simp only [List.length_cons, List.length_nil]
      omega
    · have hk : 1 ≤ k := by
        by_contra hk0
        have : k = 0 := by omega
        subst this
        simp [pow_succ] at hn
        omega
      have : n / 10 < 10 ^ k := by
        apply Nat.div_lt_of_lt_mul
        rw [pow_succ] at hn
        omega
      simp only [if_neg h, List.length_append, List.length_cons, List.length_nil]
      have := ih (n / 10) this hk
      omega

/-! ## Floor-string characterization -/

theorem takeWhile_of_all_digits {s : List Char} (h : s.all isDigitChar = true) :
    s.takeWhile isDigitChar = s :=
  List.takeWhile_eq_self_iff.mpr (by simpa [List.all_eq_true] using h)

theorem atoi_of_digits {s : List Char} (h : s.all isDigitChar = true) :
    atoi s = (atoiDigits s : Int) := by
  match s with
  | [] => simp [atoi, atoiDigits]
  | c :: rest =>
    have hc : isDigitChar c = true := by
      simp only [List.all_cons, Bool.and_eq_true] at h
      exact h.1
    have hm : c ≠ '-' := by rintro rfl; exact absurd hc (by decide)
    have hp : c ≠ '+' := by rintro rfl; exact absurd hc (by decide)
    simp only [atoi, if_neg hm, if_neg hp, takeWhile_of_all_digits h]

/-- Inversion of `validate_floor` on basement strings. -/
theorem validate_floor_B (rest : List Char) :
    validate_floor ('B' :: rest) = true ↔
      rest.length ≤ 2 ∧ rest.all isDigitChar = true ∧
        1 ≤ atoiDigits rest ∧ atoiDigits rest ≤ 99 := by
  by_cases hlen : rest.length ≤ 2
  · simp only [validate_floor, List.length_cons]
    rw [if_neg (by omega)]
    simp only [if_true, Bool.and_eq_true, decide_eq_true_eq]
    constructor
    · rintro ⟨⟨hall, h1⟩, h99⟩; exact ⟨hlen, hall, h1, h99⟩
    · rintro ⟨_, hall, h1, h99⟩; exact ⟨⟨hall, h1⟩, h99⟩
  · simp only [validate_floor, List.length_cons]
    rw [if_pos (by omega)]
    simp [hlen]

/-- Inversion of `validate_floor` on non-basement strings. -/
theorem validate_floor_reg (c : Char) (rest : List Char) (hB : c ≠ 'B') :
    validate_floor (c :: rest) = true ↔
      rest.length ≤ 2 ∧ (c :: rest).all isDigitChar = true ∧
        1 ≤ atoiDigits (c :: rest) ∧ atoiDigits (c :: rest) ≤ 999 := by
  by_cases hlen : rest.length ≤ 2
  · simp only [validate_floor, List.length_cons]
    rw [if_neg (by omega), if_neg hB]
    simp only [Bool.and_eq_true, decide_eq_true_eq]
    constructor
    · rintro ⟨⟨hall, h1⟩, h999⟩; exact ⟨hlen, hall, h1, h999⟩
    · rintro ⟨_, hall, h1, h999⟩; exact ⟨⟨hall, h1⟩, h999⟩
  · simp only [validate_floor, List.length_cons]
    rw [if_pos (by omega)]
    simp [hlen]

/-- Every accepted floor string denotes a value in `{-99..-1} ∪ {1..999}`. -/
theorem floor_to_int_range {s : List Char} (h : validate_floor s = true) :
    (1 ≤ floor_to_int s ∧ floor_to_int s ≤ 999) ∨
    (-99 ≤ floor_to_int s ∧ floor_to_int s ≤ -1) := by
  match s with
  | [] => exact absurd h (by decide)
  | c :: rest =>
    by_cases hB : c = 'B'
    · subst hB
      obtain ⟨_, hall, h1, h99⟩ := (validate_floor_B rest).mp h
      simp only [floor_to_int, if_true, atoi_of_digits hall]
      right
      omega
    · obtain ⟨_, hall, h1, h999⟩ := (validate_floor_reg c rest hB).mp h
      simp only [floor_to_int, if_neg hB, atoi_of_digits hall]
      left
      omega

/-- The canonical rendering of any value in the valid range is accepted by
the validator. -/
theorem validate_floor_int_to_floor {n : Int}
    (h : (1 ≤ n ∧ n ≤ 999) ∨ (-99 ≤ n ∧ n ≤ -1)) :
    validate_floor (int_to_floor n) = true := by
  rcases h with ⟨h1, h2⟩ | ⟨h1, h2⟩
  · have hn : ¬ n < 0 := by omega
    rw [int_to_floor, if_neg hn]
    set m := n.toNat with hm
    have hm1 : 1 ≤ m := by omega
    have hm999 : m ≤ 999 := by omega
    have hdig := natToChars_all_digits m
    have hlen := natToChars_length_le 3 m (by omega) (by omega)
    have hval := atoiDigits_natToChars m
    match hcm : natToChars m with
    | [] => exact absurd hcm (natToChars_ne_nil m)
    | c :: t =>
      rw [hcm] at hdig hlen hval
      have hcd : isDigitChar c = true := by
        simp only [List.all_cons, Bool.and_eq_true] at hdig
        exact hdig.1
      have hB : c ≠ 'B' := by
        intro hc
        subst hc
        exact absurd hcd (by decide)
      apply (validate_floor_reg c t hB).mpr
      simp only [List.length_cons] at hlen
      exact ⟨by omega, hdig, by omega, by omega⟩
  · have hn : n < 0 := by omega
    rw [int_to_floor, if_pos hn]
    set m := (-n).toNat with hm
    have hm1 : 1 ≤ m := by omega
    have hm99 : m ≤ 99 := by omega
    have hval := atoiDigits_natToChars m
    apply (validate_floor_B (natToChars m)).mpr
    exact ⟨natToChars_length_le 2 m (by omega) (by omega),
      natToChars_all_digits m, by omega, by omega⟩

/-- Round-trip on canonical (no leading zero) accepted floor strings. -/
theorem int_to_floor_floor_to_int {s : List Char}
    (hv : validate_floor s = true) (hz : no_leading_zero s = true) :
    int_to_floor (floor_to_int s) = s := by
  match s with
  | [] => exact absurd hv (by decide)
  | c :: rest =>
    by_cases hB : c = 'B'
    · subst hB
      obtain ⟨_, hall, h1, h99⟩ := (validate_floor_B rest).mp hv
      have hrne : rest ≠ [] := by
        rintro rfl
        simp [atoiDigits] at h1
      have hrz : rest.head? ≠ some '0' := by
        simp only [no_leading_zero, if_true, decide_eq_true_eq] at hz
        exact hz
      simp only [floor_to_int, if_true, atoi_of_digits hall]
      have hneg : (-(atoiDigits rest : Int)) < 0 := by omega
      rw [int_to_floor, if_pos hneg]
      have : (-(-(atoiDigits rest : Int))).toNat = atoiDigits rest := by omega
      rw [this, natToChars_atoiDigits rest hall hrne hrz]
    · obtain ⟨_, hall, h1, h999⟩ := (validate_floor_reg c rest hB).mp hv
      have hcz : c ≠ '0' := by
        simp only [no_leading_zero, if_neg hB, decide_eq_true_eq] at hz
        exact hz
      simp only [floor_to_int, if_neg hB, atoi_of_digits hall]
      have hpos : ¬ ((atoiDigits (c :: rest) : Int)) < 0 := by omega
      rw [int_to_floor, if_neg hpos]
      have : ((atoiDigits (c :: rest) : Int)).toNat = atoiDigits (c :: rest) := by omega
      rw [this, natToChars_atoiDigits (c :: rest) hall (by simp) (by simpa using hcz)]

/-- Accepted floor strings are digit strings, possibly `B`-prefixed
(no non-digit tails). -/
theorem validate_floor_digits {s : List Char} (h : validate_floor s = true) :
    (∃ rest, s = 'B' :: rest ∧ rest.all isDigitChar = true) ∨
    s.all isDigitChar = true := by
  match s with
  | [] => exact absurd h (by decide)
  | c :: rest =>
    by_cases hB : c = 'B'
    · subst hB
      exact Or.inl ⟨rest, rfl, ((validate_floor_B rest).mp h).2.1⟩
    · exact Or.inr ((validate_floor_reg c rest hB).mp h).2.1

/-! ## Scheduler lemmas -/

theorem extend_fires_source_ne {source dest : Int} {reqDir : Direction}
    {current next : Int} {rest : List Int}
    (h : extend_fires source dest reqDir current next rest = true) :
    next ≠ source := by
  intro heq
  simp only [extend_fires] at h
  have hfalse : ¬ ((dirOf current next = Direction.up ∧ source > next) ∨
      (dirOf current next = Direction.down ∧ source < next)) := by
    rintro (⟨_, hc⟩ | ⟨_, hc⟩) <;> omega
  simp [hfalse] at h

theorem cost_scan_spec (source dest : Int) (reqDir : Direction) :
    ∀ (l : List Int) (current : Int) (idx : Nat),
      idx ≤ cost_scan source dest reqDir current l idx ∧
      cost_scan source dest reqDir current l idx ≤ idx + l.length ∧
      ∀ v, l[cost_scan source dest reqDir current l idx - idx]? = some v →
        v ≠ source := by
  intro l
  induction l with
  | nil =>
    intro current idx
    refine ⟨Nat.le_refl _, by simp [cost_scan], ?_⟩
    intro v hv
    simp [cost_scan] at hv
  | cons next rest ih =>
    intro current idx
    simp only [cost_scan]
    by_cases h1 : dirOf current next = reqDir ∧
        ((reqDir = Direction.up ∧ source ≥ current ∧ source < next) ∨
         (reqDir = Direction.down ∧ source ≤ current ∧ source > next))
    · rw [if_pos h1]
      by_cases h2 : dropoff_scan source dest (reqDir = Direction.up) (next :: rest) = true
      · rw [if_pos h2]
        refine ⟨Nat.le_refl _, by simp, ?_⟩
        intro v hv
        simp only [Nat.sub_self, List.getElem?_cons_zero, Option.some.injEq] at hv
        subst hv
        rcases h1.2 with ⟨_, _, hlt⟩ | ⟨_, _, hgt⟩ <;> omega
      · rw [if_neg h2]
        obtain ⟨ha, hb, hc⟩ := ih next (idx + 1)
        refine ⟨by omega, by simp only [List.length_cons]; omega, ?_⟩
        intro v hv
        have hx : cost_scan source dest reqDir next rest (idx + 1) - idx =
            (cost_scan source dest reqDir next rest (idx + 1) - (idx + 1)) + 1 := by
          omega
        rw [hx, List.getElem?_cons_succ] at hv
        exact hc v hv
    · rw [if_neg h1]
      by_cases h3 : extend_fires source dest reqDir current next rest = true
      · rw [if_pos h3]
        refine ⟨Nat.le_refl _, by simp, ?_⟩
        intro v hv
        simp only [Nat.sub_self, List.getElem?_cons_zero, Option.some.injEq] at hv
        subst hv
        exact extend_fires_source_ne h3
      · rw [if_neg h3]
        obtain ⟨ha, hb, hc⟩ := ih next (idx + 1)
        refine ⟨by omega, by simp only [List.length_cons]; omega, ?_⟩
        intro v hv
        have hx : cost_scan source dest reqDir next rest (idx + 1) - idx =
            (cost_scan source dest reqDir next rest (idx + 1) - (idx + 1)) + 1 := by
          omega
        rw [hx, List.getElem?_cons_succ] at hv
        exact hc v hv

theorem calculate_insertion_cost_le (car : Car) (source dest : Int) :
    calculate_insertion_cost car source dest ≤ car.queue.length := by
  unfold calculate_insertion_cost
  have := (cost_scan_spec source dest (request_dir source dest)
    car.queue (effective_floor car) 0).2.1
  omega

theorem calculate_insertion_cost_ne_source (car : Car) (source dest : Int) :
    ∀ v, car.queue[calculate_insertion_cost car source dest]? = some v →
      v ≠ source := by
  unfold calculate_insertion_cost
  have := (cost_scan_spec source dest (request_dir source dest)
    car.queue (effective_floor car) 0).2.2
  simpa using this

theorem insert_into_queue_full {q : List Int} {v : Int} (i : Nat)
    (h : MAX_QUEUE_DEPTH ≤ q.length) : insert_into_queue q i v = q := by
  unfold insert_into_queue
  rw [if_pos (Or.inl h)]

theorem insert_into_queue_length_le {q : List Int} {i : Nat} {v : Int}
    (h : q.length ≤ MAX_QUEUE_DEPTH) :
    (insert_into_queue q i v).length ≤ MAX_QUEUE_DEPTH := by
  unfold insert_into_queue
  split_ifs with h1 h2
  · exact h
  · exact h
  · push_neg at h1
    simp only [List.length_append, List.length_cons, List.length_take, List.length_drop]
    omega

theorem insert_into_queue_length_le_succ (q : List Int) (i : Nat) (v : Int) :
    (insert_into_queue q i v).length ≤ q.length + 1 := by
  unfold insert_into_queue
  split_ifs with h1 h2
  · omega
  · omega
  · push_neg at h1
    simp only [List.length_append, List.length_cons, List.length_take, List.length_drop]
    omega

theorem insert_into_queue_cases (q : List Int) (i : Nat) (v : Int)
    (hroom : q.length < MAX_QUEUE_DEPTH) (hidx : i ≤ q.length) :
    (0 < i ∧ q[i - 1]? = some v ∧ insert_into_queue q i v = q) ∨
    insert_into_queue q i v = q.take i ++ v :: q.drop i := by
  unfold insert_into_queue
  split_ifs with h1 h2
  · omega
  · exact Or.inl ⟨h2.1, h2.2, rfl⟩
  · exact Or.inr rfl

theorem insert_into_queue_getElem_lt {q : List Int} {i : Nat} {v : Int}
    (j : Nat) (hj : j < i) :
    (insert_into_queue q i v)[j]? = q[j]? := by
  unfold insert_into_queue
  split_ifs with h1 h2
  · rfl
  · rfl
  · push_neg at h1
    rw [List.getElem?_append]
    simp only [List.length_take]
    rw [if_pos (by omega), List.getElem?_take]
    simp [hj]

/-! ## Adjacent-duplicate (chain) lemmas -/

theorem chain_split {q : List Int} (i : Nat) (hq : List.Chain' (· ≠ ·) q) :
    List.Chain' (· ≠ ·) (q.take i) ∧ List.Chain' (· ≠ ·) (q.drop i) := by
  have h := hq
  rw [← List.take_append_drop i q] at h
  have := List.chain'_append.mp h
  exact ⟨this.1, this.2.1⟩

theorem insert_preserves_chain (q : List Int) (i : Nat) (v : Int)
    (hq : List.Chain' (· ≠ ·) q)
    (hnext : ∀ w, q[i]? = some w → w ≠ v) :
    List.Chain' (· ≠ ·) (insert_into_queue q i v) := by
  unfold insert_into_queue
  split_ifs with h1 h2
  · exact hq
  · exact hq
  · push_neg at h1
    apply List.chain'_append.mpr
    refine ⟨(chain_split i hq).1, ?_, ?_⟩
    · apply List.chain'_cons'.mpr
      refine ⟨?_, (chain_split i hq).2⟩
      intro y hy
      rw [List.head?_drop] at hy
      exact (hnext y hy).symm
    · intro x hx y hy
      simp only [List.head?_cons, Option.mem_def, Option.some.injEq] at hy
      subst hy
      rcases Nat.eq_zero_or_pos i with hi0 | hip
      · subst hi0
        simp at hx
      · have hlen : (q.take i).length = i := by
          rw [List.length_take]
          omega
        rw [List.getLast?_eq_getElem?, hlen, List.getElem?_take] at hx
        rw [if_pos (by omega : i - 1 < i)] at hx
        intro hxy
        subst hxy
        exact h2 ⟨hip, hx⟩

theorem remove_head_chain (q : List Int) (hq : List.Chain' (· ≠ ·) q) :
    List.Chain' (· ≠ ·) (remove_from_queue q 0) := by
  unfold remove_from_queue
  split_ifs with h1
  · exact hq
  · simpa [List.drop_one] using hq.tail

theorem commit_queue_chain (car : Car) (source dest : Int)
    (hq : List.Chain' (· ≠ ·) car.queue) :
    List.Chain' (· ≠ ·) (commit_queue car source dest) := by
  simp only [commit_queue]
  have hq1 : List.Chain' (· ≠ ·)
      (insert_into_queue car.queue (calculate_insertion_cost car source dest) source) :=
    insert_preserves_chain _ _ _ hq
      (calculate_insertion_cost_ne_source car source dest)
  split_ifs with hmem
  · exact hq1
  · apply insert_preserves_chain _ _ _ hq1
    intro w hw
    intro hwv
    subst hwv
    exact hmem (List.getElem?_mem hw)

/-! ## Candidate-selection lemmas -/

theorem select_best_isSome (source dest : Int) :
    ∀ (l : List Car) (i minCost bestLen : Nat) (x : Nat × Car),
      (select_best source dest l i minCost bestLen (some x)).isSome := by
  intro l
  induction l with
  | nil => intro i mc bl x; simp [select_best]
  | cons c rest ih =>
    intro i mc bl x
    simp only [select_best]
    split_ifs
    · exact ih _ _ _ _
    · exact ih _ _ _ _
    · exact ih _ _ _ _

theorem select_best_none_iff (source dest : Int) :
    ∀ (l : List Car) (i : Nat), (∀ c ∈ l, c.queue.length ≤ MAX_QUEUE_DEPTH) →
      (select_best source dest l i 1000 1000 none = none ↔
        ∀ c ∈ l, covers c source dest = false) := by
  intro l
  induction l with
  | nil => intro i _; simp [select_best]
  | cons c rest ih =>
    intro i hbound
    simp only [select_best]
    by_cases hcov : covers c source dest = true
    · rw [if_pos hcov]
      have hcost : calculate_insertion_cost c source dest < 1000 := by
        have h1 := calculate_insertion_cost_le c source dest
        have h2 := hbound c (by simp)
        simp only [MAX_QUEUE_DEPTH] at h2
        omega
      rw [if_pos (Or.inl hcost)]
      constructor
      · intro h
        have := select_best_isSome source dest rest (i + 1)
          (calculate_insertion_cost c source dest) (c.queue.length + 2)
          (i, c)
        rw [h] at this
        simp at this
      · intro h
        have := h c (by simp)
        rw [hcov] at this
        simp at this
    · rw [if_neg hcov]
      have := ih (i + 1) (fun d hd => hbound d (by simp [hd]))
      rw [this]
      constructor
      · intro h d hd
        rcases List.mem_cons.mp hd with rfl | hd'
        · simpa using hcov
        · exact h d hd'
      · intro h d hd
        exact h d (by simp [hd])

theorem select_best_mem (source dest : Int) :
    ∀ (l : List Car) (i minCost bestLen : Nat) (b : Option (Nat × Car))
      (j : Nat) (c : Car),
      select_best source dest l i minCost bestLen b = some (j, c) →
      b = some (j, c) ∨
        (covers c source dest = true ∧ ∃ k, l[k]? = some c ∧ j = i + k) := by
  intro l
  induction l with
  | nil =>
    intro i mc bl b j c h
    simp only [select_best] at h
    exact Or.inl h
  | cons d rest ih =>
    intro i mc bl b j c h
    simp only [select_best] at h
    split_ifs at h with h1 h2
    · rcases ih _ _ _ _ _ _ h with heq | ⟨hcov, k, hk, hj⟩
      · injection heq with heq
        obtain ⟨rfl, rfl⟩ := Prod.mk.injEq .. ▸ (Prod.mk.inj heq)
        exact Or.inr ⟨h1, 0, by simp, by omega⟩
      · exact Or.inr ⟨hcov, k + 1, by simpa using hk, by omega⟩
    · rcases ih _ _ _ _ _ _ h with heq | ⟨hcov, k, hk, hj⟩
      · exact Or.inl heq
      · exact Or.inr ⟨hcov, k + 1, by simpa using hk, by omega⟩
    · rcases ih _ _ _ _ _ _ h with heq | ⟨hcov, k, hk, hj⟩
      · exact Or.inl heq
      · exact Or.inr ⟨hcov, k + 1, by simpa using hk, by omega⟩

/-! ## Commit-position lemmas -/

theorem sublist_pair_of_indices :
    ∀ (l : List Int) (i j : Nat) (a b : Int), i < j →
      l[i]? = some a → l[j]? = some b → List.Sublist [a, b] l := by
  intro l
  induction l with
  | nil => intro i j a b _ ha; simp at ha
  | cons x t ih =>
    intro i j a b hij ha hb
    match i with
    | 0 =>
      simp only [List.getElem?_cons_zero, Option.some.injEq] at ha
      subst ha
      match j, hij with
      | j + 1, _ =>
        rw [List.getElem?_cons_succ] at hb
        have hbt : b ∈ t := List.getElem?_mem hb
        exact List.cons_sublist_cons.mpr (List.singleton_sublist.mpr hbt)
    | i + 1 =>
      match j, hij with
      | j + 1, _ =>
        rw [List.getElem?_cons_succ] at ha hb
        exact List.sublist_cons_of_sublist x (ih i j a b (by omega) ha hb)

theorem inserted_getElem_self (q : List Int) (i : Nat) (v : Int)
    (hi : i ≤ q.length) :
    (q.take i ++ v :: q.drop i)[i]? = some v := by
  rw [List.getElem?_append]
  have hlen : (q.take i).length = i := by
    rw [List.length_take]; omega
  rw [hlen]
  simp

theorem find_dest_idx_le (q1 : List Int) (pickup : Nat) (t : Bool) (dest : Int) :
    find_dest_idx q1 pickup t dest ≤ q1.length := by
  rcases h : (q1.drop (pickup + 1)).findIdx?
      (fun f => if t then decide (dest < f) else decide (dest > f)) with _ | k
  · simp [find_dest_idx, h]
  · have hk := (List.findIdx?_eq_some_iff_findIdx_eq.mp h).1
    rw [List.length_drop] at hk
    simp only [find_dest_idx, h]
    omega

theorem find_dest_idx_gt (q1 : List Int) (pickup : Nat) (t : Bool) (dest : Int)
    (p : Nat) (hp : p < q1.length) (hp2 : p ≤ pickup) :
    p < find_dest_idx q1 pickup t dest := by
  rcases h : (q1.drop (pickup + 1)).findIdx?
      (fun f => if t then decide (dest < f) else decide (dest > f)) with _ | k
  · simp only [find_dest_idx, h]
    omega
  · simp only [find_dest_idx, h]
    omega

theorem getElem?_lt_length {q : List Int} {p : Nat} {a : Int}
    (h : q[p]? = some a) : p < q.length := by
  by_contra hge
  rw [List.getElem?_eq_none (by omega)] at h
  exact Option.noConfusion h

/-- After a commit with room to spare, with `source ≠ dest` and `dest` not
already queued at or before the pickup index, the queue lists `source`
before `dest`. -/
theorem commit_queue_contains (car : Car) (source dest : Int)
    (hroom : car.queue.length ≤ 18)
    (hsd : source ≠ dest)
    (hnodst : ∀ j w, j < calculate_insertion_cost car source dest →
      car.queue[j]? = some w → w ≠ dest) :
    List.Sublist [source, dest] (commit_queue car source dest) := by
  have hcommit : commit_queue car source dest =
      if dest ∈ insert_into_queue car.queue (calculate_insertion_cost car source dest) source
      then insert_into_queue car.queue (calculate_insertion_cost car source dest) source
      else insert_into_queue
        (insert_into_queue car.queue (calculate_insertion_cost car source dest) source)
        (find_dest_idx
          (insert_into_queue car.queue (calculate_insertion_cost car source dest) source)
          (calculate_insertion_cost car source dest) (decide (dest > source)) dest)
        dest := rfl
  rw [hcommit]
  set pickup := calculate_insertion_cost car source dest with hpk
  set q1 := insert_into_queue car.queue pickup source with hq1
  have hple : pickup ≤ car.queue.length := calculate_insertion_cost_le car source dest
  have hroom20 : car.queue.length < MAX_QUEUE_DEPTH := by
    simp only [MAX_QUEUE_DEPTH]; omega
  -- the position of source in q1, and the fact that nothing at or before it
  -- is dest
  have hfacts : ∃ p : Nat, p ≤ pickup ∧ q1[p]? = some source ∧
      ∀ j w, j ≤ p → q1[j]? = some w → w ≠ dest := by
    rcases insert_into_queue_cases car.queue pickup source hroom20 hple with
      ⟨hpos, hdedup, heq⟩ | heq
    · refine ⟨pickup - 1, by omega, ?_, ?_⟩
      · rw [hq1, heq]; exact hdedup
      · intro j w hj hw
        rw [hq1, heq] at hw
        exact hnodst j w (by omega) hw
    · refine ⟨pickup, Nat.le_refl _, ?_, ?_⟩
      · rw [hq1, heq]; exact inserted_getElem_self _ _ _ hple
      · intro j w hj hw
        rcases Nat.lt_or_ge j pickup with hjlt | hjge
        · rw [hq1, insert_into_queue_getElem_lt j hjlt] at hw
          exact hnodst j w hjlt hw
        · have hj' : j = pickup := by omega
          subst hj'
          rw [hq1, heq, inserted_getElem_self _ _ _ hple] at hw
          injection hw with hw
          subst hw
          exact hsd
  obtain ⟨p, hp_le, hsrc, hbefore⟩ := hfacts
  by_cases hmem : dest ∈ q1
  · rw [if_pos hmem]
    obtain ⟨j, hjlt, hj⟩ := List.mem_iff_getElem.mp hmem
    have hj? : q1[j]? = some dest := by
      rw [List.getElem?_eq_getElem hjlt, hj]
    have hpj : p < j := by
      by_contra hle
      exact hbefore j dest (by omega) hj? rfl
    exact sublist_pair_of_indices q1 p j source dest hpj hsrc hj?
  · rw [if_neg hmem]
    set destIdx := find_dest_idx q1 pickup (decide (dest > source)) dest with hdi
    have hq1len : q1.length ≤ car.queue.length + 1 :=
      insert_into_queue_length_le_succ _ _ _
    have hq1room : q1.length < MAX_QUEUE_DEPTH := by
      simp only [MAX_QUEUE_DEPTH]; omega
    have hdle : destIdx ≤ q1.length := find_dest_idx_le q1 pickup _ dest
    have hplt : p < q1.length := getElem?_lt_length hsrc
    have hpd : p < destIdx := find_dest_idx_gt q1 pickup _ dest p hplt hp_le
    rcases insert_into_queue_cases q1 destIdx dest hq1room hdle with
      ⟨_, hdedup, _⟩ | heq2
    · exact absurd (List.getElem?_mem hdedup) hmem
    · have hdst : (insert_into_queue q1 destIdx dest)[destIdx]? = some dest := by
        rw [heq2]; exact inserted_getElem_self _ _ _ hdle
      have hsrc2 : (insert_into_queue q1 destIdx dest)[p]? = some source := by
        rw [insert_into_queue_getElem_lt p hpd]; exact hsrc
      exact sublist_pair_of_indices _ p destIdx source dest hpd hsrc2 hdst

/-- A commit on a full queue (20 entries) drops both stops: the queue is
unchanged. -/
theorem commit_queue_full (car : Car) (source dest : Int)
    (h : MAX_QUEUE_DEPTH ≤ car.queue.length) :
    commit_queue car source dest = car.queue := by
  have hcommit : commit_queue car source dest =
      if dest ∈ insert_into_queue car.queue (calculate_insertion_cost car source dest) source
      then insert_into_queue car.queue (calculate_insertion_cost car source dest) source
      else insert_into_queue
        (insert_into_queue car.queue (calculate_insertion_cost car source dest) source)
        (find_dest_idx
          (insert_into_queue car.queue (calculate_insertion_cost car source dest) source)
          (calculate_insertion_cost car source dest) (decide (dest > source)) dest)
        dest := rfl
  rw [hcommit, insert_into_queue_full _ h]
  split_ifs with hmem
  · rfl
  · exact insert_into_queue_full _ h

theorem list_set_self : ∀ (l : List Car) (i : Nat) (c : Car),
    l[i]? = some c → l.set i c = l := by
  intro l
  induction l with
  | nil => intro i c h; simp at h
  | cons x t ih =>
    intro i c h
    match i with
    | 0 =>
      simp only [List.getElem?_cons_zero, Option.some.injEq] at h
      subst h
      simp
    | i + 1 =>
      rw [List.getElem?_cons_succ] at h
      simp [ih i c h]

/-! ## Claim theorems -/

/-- C1: the spec's invariant — `current_floor` and `destination_floor` are
always valid floor strings and every car-engine / internal-client operation
preserves this — is broken by the code. From the valid state (current `B1`,
destination `1`, Between), one movement tick writes the invalid floor `"0"`
into `current_floor`; and from a car at `999` in individual-service mode the
internal client's `up` writes the invalid `"1000"` into
`destination_floor`. -/
theorem claim_C1_floor_validity_broken :
    (validate_floor shm_B1_to_1.current_floor = true ∧
     validate_floor shm_B1_to_1.destination_floor = true ∧
     ∃ s' : CarShm, EngineStep shm_B1_to_1 s' ∧
       validate_floor s'.current_floor = false) ∧
    (validate_floor shm_at_999.current_floor = true ∧
     ∃ s' : CarShm, internal_run InternalOp.op_up shm_at_999 = some s' ∧
       validate_floor s'.destination_floor = false) := by
  refine ⟨⟨by decide, by decide,
    ⟨_, EngineStep.move_tick shm_B1_to_1 rfl rfl, by decide⟩⟩,
    by decide, ⟨_, rfl, by decide⟩⟩

/-- C2: the claim says a Between tick moves `current_floor` one floor toward
the destination in the zero-skipping floor order (so from `B1` toward `1`
it should reach `1`) and never produces `"0"`. The code's
`move_one_floor_towards` steps the plain integer, producing exactly the
string `"0"`, which both floor validators in the repository reject. -/
theorem claim_C2_move_tick_hits_floor_zero :
    move_one_floor_towards "B1".data "1".data = "0".data ∧
    "0".data ≠ "1".data ∧
    validate_floor "0".data = false ∧
    validate_floor_string "0".data = false := by
  decide

/-- C8 counterexample: `"01"` is accepted by the validator but does not
survive the round trip — it canonicalizes to `"1"`. -/
theorem claim_C8_counterexample :
    validate_floor "01".data = true ∧
    int_to_floor (floor_to_int "01".data) = "1".data ∧
    "1".data ≠ "01".data := by
  decide

/-- C8 (amended): the round trip `int_to_floor (floor_to_int s) = s` holds
for every accepted floor string whose digit part has no leading zero (the
canonical forms); accepted strings with leading zeros canonicalize
instead. -/
theorem claim_C8_roundtrip_canonical (s : List Char)
    (hv : validate_floor s = true) (hz : no_leading_zero s = true) :
    int_to_floor (floor_to_int s) = s :=
  int_to_floor_floor_to_int hv hz

/-- C8 witness. -/
theorem claim_C8_roundtrip_canonical_witness :
    int_to_floor (floor_to_int "B42".data) = "B42".data :=
  claim_C8_roundtrip_canonical "B42".data (by decide) (by decide)

/-- C9 counterexample: the validator does not reject leading zeros — it
accepts `"01"` and `"B07"`, which are not canonical forms. -/
theorem claim_C9_counterexample :
    validate_floor "01".data = true ∧ validate_floor "B07".data = true := by
  decide

/-- C9 (amended): the validator accepts every canonical form of
`{-99..-1} ∪ {1..999}` and rejects the empty string, strings longer than
three characters, non-digit tails, and anything denoting zero or an
out-of-range value — but it also accepts zero-padded variants such as
`"01"`, so it accepts strictly more than the canonical forms. -/
theorem claim_C9_validator_language :
    (∀ n : Int, (1 ≤ n ∧ n ≤ 999) ∨ (-99 ≤ n ∧ n ≤ -1) →
      validate_floor (int_to_floor n) = true) ∧
    validate_floor [] = false ∧
    (∀ s : List Char, 3 < s.length → validate_floor s = false) ∧
    (∀ s : List Char, validate_floor s = true →
      (∃ rest, s = 'B' :: rest ∧ rest.all isDigitChar = true) ∨
        s.all isDigitChar = true) ∧
    (∀ s : List Char, validate_floor s = true →
      (1 ≤ floor_to_int s ∧ floor_to_int s ≤ 999) ∨
      (-99 ≤ floor_to_int s ∧ floor_to_int s ≤ -1)) ∧
    validate_floor ['0', '1'] = true := by
  refine ⟨fun n hn => validate_floor_int_to_floor hn, by decide, ?_,
    fun s => validate_floor_digits, fun s => floor_to_int_range, by decide⟩
  intro s hlen
  unfold validate_floor
  rw [if_pos (Or.inr hlen)]

/-- C9 witness. -/
theorem claim_C9_validator_language_witness :
    validate_floor (int_to_floor (-42)) = true :=
  claim_C9_validator_language.1 (-42) (by omega)

/-- C4: the dispatcher replies `UNAVAILABLE` exactly when no registered car
covers both floors of the call, and whenever some registered car covers
both, it replies `CAR <name>` (queues are bounded by `MAX_QUEUE_DEPTH`, the
dispatcher's representation invariant). -/
theorem claim_C4_unavailable_iff_uncovered (cars : List Car) (source dest : Int)
    (hbound : ∀ c ∈ cars, c.queue.length ≤ MAX_QUEUE_DEPTH) :
    ((schedule_request cars source dest).1 = Reply.unavailable ↔
      ∀ c ∈ cars, covers c source dest = false) ∧
    ((∃ c ∈ cars, covers c source dest = true) →
      ∃ nm, (schedule_request cars source dest).1 = Reply.assigned nm) := by
  rcases h : select_best source dest cars 0 1000 1000 none with _ | ⟨i, c⟩
  · have hall := (select_best_none_iff source dest cars 0 hbound).mp h
    constructor
    · simp only [schedule_request, h]
      exact ⟨fun _ => hall, fun _ => trivial⟩
    · rintro ⟨c, hc, hcov⟩
      rw [hall c hc] at hcov
      exact absurd hcov (by simp)
  · have hmem := select_best_mem source dest cars 0 1000 1000 none i c h
    rcases hmem with heq | ⟨hcov, k, hk, _⟩
    · exact absurd heq (by simp)
    · constructor
      · simp only [schedule_request, h]
        constructor
        · intro hbad
          exact absurd hbad (by simp)
        · intro hall
          rw [hall c (List.getElem?_mem hk)] at hcov
          exact absurd hcov (by simp)
      · intro _
        refine ⟨c.car_name, ?_⟩
        simp only [schedule_request, h]

/-- C4 witness. -/
theorem claim_C4_unavailable_iff_uncovered_witness :
    (schedule_request [sample_car []] 20 3).1 = Reply.unavailable :=
  (claim_C4_unavailable_iff_uncovered [sample_car []] 20 3 (by decide)).1.mpr
    (by decide)

/-- C5: every queue the dispatcher can reach — empty at registration, then
any sequence of `schedule_request` commits and head removals — is free of
equal adjacent entries. -/
theorem claim_C5_no_adjacent_duplicates (q : List Int) (h : QueueReach q) :
    List.Chain' (· ≠ ·) q := by
  induction h with
  | init => simp
  | commit nm fmin fmax cf st source dest _ ih =>
    exact commit_queue_chain _ source dest ih
  | pop _ ih => exact remove_head_chain _ ih

/-- C5 witness: a commit followed by a head removal, starting from the
empty queue. -/
theorem claim_C5_no_adjacent_duplicates_witness :
    List.Chain' (· ≠ ·)
      (remove_from_queue (commit_queue (sample_car []) 2 6) 0) :=
  claim_C5_no_adjacent_duplicates _
    (QueueReach.pop (QueueReach.commit "A".data 1 10 1 "Closed".data 2 6
      QueueReach.init))

/-- C10: inserting into a full queue (20 entries) is a no-op, insertion
never grows a queue beyond 20 — and yet when every candidate's queue is
full the dispatcher still replies `CAR <name>` with all queues unchanged:
the requested stops are silently dropped. -/
theorem claim_C10_full_queue_drops_stops :
    (∀ (q : List Int) (i : Nat) (v : Int), q.length = MAX_QUEUE_DEPTH →
      insert_into_queue q i v = q) ∧
    (∀ (q : List Int) (i : Nat) (v : Int), q.length ≤ MAX_QUEUE_DEPTH →
      (insert_into_queue q i v).length ≤ MAX_QUEUE_DEPTH) ∧
    (∀ (cars : List Car) (source dest : Int),
      (∀ c ∈ cars, c.queue.length = MAX_QUEUE_DEPTH) →
      (∃ c ∈ cars, covers c source dest = true) →
      ∃ nm, schedule_request cars source dest = (Reply.assigned nm, cars)) := by
  refine ⟨fun q i v h => insert_into_queue_full i (by omega),
    fun q i v h => insert_into_queue_length_le h, ?_⟩
  intro cars source dest hfull hcov
  rcases h : select_best source dest cars 0 1000 1000 none with _ | ⟨i, c⟩
  · obtain ⟨c, hc, hcovc⟩ := hcov
    have := (select_best_none_iff source dest cars 0
      (fun d hd => by rw [hfull d hd])).mp h c hc
    rw [hcovc] at this
    exact absurd this (by simp)
  · rcases select_best_mem source dest cars 0 1000 1000 none i c h with
      heq | ⟨_, k, hk, hik⟩
    · exact absurd heq (by simp)
    · have hik' : i = k := by omega
      subst hik'
      have hcfull : c.queue.length = MAX_QUEUE_DEPTH :=
        hfull c (List.getElem?_mem hk)
      refine ⟨c.car_name, ?_⟩
      simp only [schedule_request, h]
      rw [commit_queue_full c source dest (by omega)]
      have : { c with queue := c.queue } = c := rfl
      rw [this, list_set_self cars i c hk]

/-- C10 witness. -/
theorem claim_C10_full_queue_drops_stops_witness :
    ∃ nm, schedule_request
        [sample_car [2, 3, 4, 5, 6, 7, 8, 9, 10, 9, 8, 7, 6, 5, 4, 3, 2, 3, 4, 5]]
        2 6 =
      (Reply.assigned nm,
        [sample_car [2, 3, 4, 5, 6, 7, 8, 9, 10, 9, 8, 7, 6, 5, 4, 3, 2, 3, 4, 5]]) :=
  claim_C10_full_queue_drops_stops.2.2
    [sample_car [2, 3, 4, 5, 6, 7, 8, 9, 10, 9, 8, 7, 6, 5, 4, 3, 2, 3, 4, 5]]
    2 6 (by decide)
    ⟨sample_car [2, 3, 4, 5, 6, 7, 8, 9, 10, 9, 8, 7, 6, 5, 4, 3, 2, 3, 4, 5],
      by simp, by decide⟩

/-- C3 counterexample: car "A" (floors 1..10, at 1, Closed) with pending
stops `[3, 9]` answers `CALL 5 3` with `CAR A`, committing the queue
`[3, 9, 5]` — the source 5 is appended at the end while the destination 3
only occurs *before* it (the commit reuses the already-scheduled stop 3),
so the queue does not contain `src` before `dst`. -/
theorem claim_C3_counterexample :
    schedule_request [sample_car [3, 9]] 5 3 =
      (Reply.assigned "A".data, [sample_car [3, 9, 5]]) ∧
    ¬ List.Sublist [(5 : Int), 3] [(3 : Int), 9, 5] := by
  decide

/-- C3 (amended): whenever the dispatcher answers `CAR <name>`, the chosen
car covers both floors (unconditionally); and provided *that car's* queue
held at most 18 stops, `src ≠ dst`, and `dst` was not already queued before
its pickup index, the committed queue contains `src` at some index and
`dst` at a strictly later one. The other registered cars are
unconstrained. -/
theorem claim_C3_committed_order (cars cars' : List Car) (source dest : Int)
    (nm : List Char)
    (hrep : schedule_request cars source dest = (Reply.assigned nm, cars')) :
    ∃ (i : Nat) (c : Car), cars[i]? = some c ∧
      covers c source dest = true ∧
      c.floor_min ≤ source ∧ source ≤ c.floor_max ∧
      c.floor_min ≤ dest ∧ dest ≤ c.floor_max ∧
      cars' = cars.set i { c with queue := commit_queue c source dest } ∧
      (c.queue.length ≤ 18 → source ≠ dest →
        (∀ j w, j < calculate_insertion_cost c source dest →
          c.queue[j]? = some w → w ≠ dest) →
        List.Sublist [source, dest] (commit_queue c source dest)) := by
  rcases h : select_best source dest cars 0 1000 1000 none with _ | ⟨i, c⟩
  · rw [schedule_request, h] at hrep
    exact absurd (congrArg Prod.fst hrep) (by simp)
  · rw [schedule_request, h] at hrep
    have hrep1 : cars' = cars.set i { c with queue := commit_queue c source dest } := by
      have := congrArg Prod.snd hrep
      simpa using this.symm
    rcases select_best_mem source dest cars 0 1000 1000 none i c h with
      heq | ⟨hcov, k, hk, hik⟩
    · exact absurd heq (by simp)
    · have hik' : i = k := by omega
      subst hik'
      have hcov' := hcov
      simp only [covers, Bool.not_eq_true', Bool.or_eq_false_iff,
        decide_eq_false_iff_not, not_lt] at hcov'
      refine ⟨i, c, hk, hcov, by omega, by omega, by omega, by omega, hrep1, ?_⟩
      intro hroom hsd hnodst
      exact commit_queue_contains c source dest hroom hsd hnodst

/-- C3 witness: an empty-queue car assigned `CALL 2 6` commits `[2, 6]`. -/
theorem claim_C3_committed_order_witness :
    List.Sublist [(2 : Int), 6] (commit_queue (sample_car []) 2 6) := by
  obtain ⟨i, c, hic, -, -, -, -, -, -, hord⟩ :=
    claim_C3_committed_order [sample_car []] [sample_car [2, 6]] 2 6 "A".data
      (by decide)
  match i, hic with
  | 0, hic =>
    rw [show c = sample_car [] from by simpa using hic.symm] at hord
    exact hord (by decide) (by decide)
      (by
        intro j w hj hw
        simp [sample_car] at hw)
  | i + 1, hic => simp at hic

/-- C6 counterexample: `emergency_mode` is *not* latched until restart — a
run of the internal-service client with `service_on` on a segment in
emergency mode resets it to 0. -/
theorem claim_C6_counterexample :
    sample_shm_emergency.emergency_mode = 1 ∧
    (internal_run InternalOp.service_on sample_shm_emergency).map
      CarShm.emergency_mode = some 0 := by
  decide

/-- C6 (amended): once set, `emergency_mode` is preserved by every
car-engine write, by every safety-supervisor wake, and by every
internal-service operation other than `service_on`; `service_on` alone
resets it (together with enabling individual-service mode). -/
theorem claim_C6_emergency_latched :
    (∀ s s' : CarShm, EngineStep s s' → s.emergency_mode = 1 →
      s'.emergency_mode = 1) ∧
    (∀ s : CarShm, s.emergency_mode = 1 → (safety_wake s).emergency_mode = 1) ∧
    (∀ (op : InternalOp) (s s' : CarShm), op ≠ InternalOp.service_on →
      internal_run op s = some s' → s.emergency_mode = 1 →
      s'.emergency_mode = 1) := by
  refine ⟨?_, ?_, ?_⟩
  · intro s s' hstep hem
    cases hstep <;> simp_all
  · intro s hem
    simp only [safety_wake]
    split_ifs <;> simp_all [check_data_consistency]
  · intro op s s' hop hrun hem
    cases op with
    | service_on => exact absurd rfl hop
    | op_up =>
      simp only [internal_run] at hrun
      split_ifs at hrun
      injection hrun with hrun
      subst hrun
      exact hem
    | op_down =>
      simp only [internal_run] at hrun
      split_ifs at hrun
      injection hrun with hrun
      subst hrun
      exact hem
    | _ =>
      simp only [internal_run] at hrun
      injection hrun with hrun
      subst hrun
      exact hem

/-- C6 witness. -/
theorem claim_C6_emergency_latched_witness :
    (safety_wake sample_shm_emergency).emergency_mode = 1 :=
  claim_C6_emergency_latched.2.1 sample_shm_emergency rfl

/-- C7 counterexample: a `service_on` run on a segment in emergency mode
mutates *two* fields — it sets `individual_service_mode` and clears
`emergency_mode` — refuting "mutates exactly one field and leaves every
other field unchanged". -/
theorem claim_C7_counterexample :
    (internal_run InternalOp.service_on sample_shm_emergency).map
        CarShm.individual_service_mode = some 1 ∧
    (internal_run InternalOp.service_on sample_shm_emergency).map
        CarShm.emergency_mode = some 0 ∧
    sample_shm_emergency.individual_service_mode = 0 ∧
    sample_shm_emergency.emergency_mode = 1 := by
  decide

/-- C7 (amended): a successful internal-service run leaves every field
other than the operation's designated one unchanged — except `service_on`,
which additionally overwrites `emergency_mode`. -/
theorem claim_C7_single_field_frame (op : InternalOp) (s s' : CarShm)
    (h : internal_run op s = some s') (f : ShmField)
    (hf : f ≠ writes_field op)
    (hso : op = InternalOp.service_on → f ≠ ShmField.emergencyMode) :
    fieldEq f s s' := by
  cases op with
  | op_up =>
    simp only [internal_run] at h
    split_ifs at h
    injection h with h
    subst h
    cases f <;> simp_all [fieldEq, writes_field]
  | op_down =>
    simp only [internal_run] at h
    split_ifs at h
    injection h with h
    subst h
    cases f <;> simp_all [fieldEq, writes_field]
  | _ =>
    simp only [internal_run] at h
    injection h with h
    subst h
    cases f <;> simp_all [fieldEq, writes_field]

/-- C7 witness. -/
theorem claim_C7_single_field_frame_witness :
    fieldEq ShmField.currentFloor sample_shm
      { sample_shm with open_button := 1 } :=
  claim_C7_single_field_frame InternalOp.op_open sample_shm
    { sample_shm with open_button := 1 } rfl ShmField.currentFloor
    (by decide) (by decide)

end Elevator
